import Mathlib

/-!
Verification of the WebClonerPy crawl-and-rewrite engine (`src/app.py`).

Strings are modelled as `List Char` (Python `str`), filesystem paths as
`List (List Char)` (a list of path segments below an abstract filesystem
root); joining segments with the OS separator is modelled by list append.
All definitions are shallow embeddings of the Python source; line numbers
in the doc comments refer to `src/app.py`.
-/

/-- Embeds the character class of the regex `[<>:"/\\|?*\x00-\x1f]` used by
`sanitize_filename` (app.py line 38). -/
def illegalChar (c : Char) : Bool :=
  c = '<' || c = '>' || c = ':' || c = '"' || c = '/' || c = '\\' ||
  c = '|' || c = '?' || c = '*' || c.toNat ≤ 0x1f

/-- Embeds `re.sub(r'[<>:"/\\|?*\x00-\x1f]', '_', filename)` (app.py line 38). -/
def replaceIllegal (s : List Char) : List Char :=
  s.map fun c => if illegalChar c then '_' else c

/-- Helper for `re.sub(r'_+', '_', filename)`: the Bool argument records whether
the previously emitted character was an underscore of a run being collapsed. -/
def collapseAux : Bool → List Char → List Char
  | _, [] => []
  | prevU, c :: rest =>
    if c = '_' then
      if prevU then collapseAux true rest
      else '_' :: collapseAux true rest
    else c :: collapseAux false rest

/-- Embeds `re.sub(r'_+', '_', filename)` (app.py line 39): every maximal run
of underscores is replaced by a single underscore. -/
def collapseUnderscores (s : List Char) : List Char :=
  collapseAux false s

/-- Python `str.strip(chars)`: drop characters satisfying `p` from both ends. -/
def stripChar (p : Char → Bool) (s : List Char) : List Char :=
  ((s.dropWhile p).reverse.dropWhile p).reverse

/-- The strip set of `filename.strip('_ ')` (app.py line 40). -/
def underscoreOrSpace (c : Char) : Bool :=
  c = '_' || c = ' '

/-- Embeds `sanitize_filename` (app.py lines 37-44): replace illegal characters
by `_`, collapse underscore runs, strip `_` and space from the ends, substitute
`"untitled"` for an empty result, and truncate to 200 characters. -/
def sanitize_filename (s : List Char) : List Char :=
  let t := stripChar underscoreOrSpace (collapseUnderscores (replaceIllegal s))
  let u := if t = [] then "untitled".toList else t
  u.take 200

/-- `true` iff the string contains two consecutive underscores. -/
def hasDoubleUnderscore : List Char → Bool
  | a :: b :: rest => ((a = '_') && (b = '_')) || hasDoubleUnderscore (b :: rest)
  | _ => false

/-- Helper for Python `str.split(sep)` with an explicit one-character
separator; `acc` accumulates the current piece in reverse. -/
def splitOnCharAux (sep : Char) : List Char → List Char → List (List Char)
  | acc, [] => [acc.reverse]
  | acc, c :: cs =>
    if c = sep then acc.reverse :: splitOnCharAux sep [] cs
    else splitOnCharAux sep (c :: acc) cs

/-- Python `s.split(sep)` for a one-character separator (keeps empty pieces,
exactly as Python does). -/
def splitOnChar (sep : Char) (s : List Char) : List (List Char) :=
  splitOnCharAux sep [] s

/-- ASCII whitespace as recognised by Python `str.strip()`. -/
def isPySpace (c : Char) : Bool :=
  c = ' ' || c = '\t' || c = '\n' || c = '\r' || c = '\x0b' || c = '\x0c'

/-- Python `s.strip()`. -/
def pyStrip (s : List Char) : List Char :=
  stripChar isPySpace s

/-- Python `pat in s` substring test. -/
def hasSubstringL (pat : List Char) : List Char → Bool
  | [] => pat.isEmpty
  | c :: cs => pat.isPrefixOf (c :: cs) || hasSubstringL pat cs

/-- Python `s.lower()` (ASCII case folding suffices for the strings involved). -/
def toLowerL (s : List Char) : List Char :=
  s.map Char.toLower

/-- Python `s.endswith(c)` for a single character. -/
def endsWithChar (c : Char) (s : List Char) : Bool :=
  s.getLast? == some c

/-- Python `s.endswith(suffix)`. -/
def endsWithL (suffix s : List Char) : Bool :=
  suffix.isSuffixOf s

/-- Python `'.' in s` (app.py lines 257 and 353). -/
def hasDotL (s : List Char) : Bool :=
  s.contains '.'

/-- Python `l[-1]` with a default for the impossible empty case. -/
def lastD : List (List Char) → List Char → List Char
  | [], d => d
  | [a], _ => a
  | _ :: b :: l, d => lastD (b :: l) d

/-- Embeds the segment pipeline used on both the save side (app.py line 247)
and the link side (line 340):
`[sanitize_filename(s) for s in path.strip('/').split('/') if s]`. -/
def pathSegments (decodedPath : List Char) : List (List Char) :=
  ((splitOnChar '/' (stripChar (fun c => c = '/') decodedPath)).filter
    (fun s => !s.isEmpty)).map sanitize_filename

/-- The page-extension heuristic list `['.html', '.htm', '.php']`
(app.py lines 235 and 346). -/
def htmlExts : List (List Char) :=
  [".html".toList, ".htm".toList, ".php".toList]

/-- The asset extension allow-list of app.py lines 321-325. -/
def assetExts : List (List Char) :=
  [".css".toList, ".js".toList, ".png".toList, ".jpg".toList, ".jpeg".toList,
   ".gif".toList, ".svg".toList, ".webp".toList, ".ico".toList, ".json".toList,
   ".woff".toList, ".woff2".toList, ".ttf".toList, ".otf".toList, ".eot".toList,
   ".mp4".toList, ".webm".toList, ".ogg".toList, ".mp3".toList,
   ".pdf".toList, ".doc".toList, ".docx".toList, ".xls".toList, ".xlsx".toList,
   ".ppt".toList, ".pptx".toList, ".xml".toList, ".txt".toList]

/-- The tag names that force asset classification (app.py line 326). -/
def forcedAssetTags : List (List Char) :=
  ["img".toList, "link".toList, "script".toList, "source".toList, "embed".toList]

/-- Embeds `link_is_likely_html` (app.py line 346): extension heuristic on the
whole lowercased absolute link, or a trailing slash on the raw link. -/
def linkIsLikelyHtml (absoluteLink : List Char) : Bool :=
  htmlExts.any (fun e => endsWithL e (toLowerL absoluteLink)) ||
  endsWithChar '/' absoluteLink

/-- Embeds `is_asset_file` (app.py lines 321-326): extension allow-list on the
lowercased URL path, or a forcing tag name. -/
def isAssetFile (linkPath tagName : List Char) : Bool :=
  assetExts.any (fun e => endsWithL e (toLowerL linkPath)) ||
  forcedAssetTags.contains tagName

/-- Embeds the `is_html` classification of a fetched response
(app.py lines 231-242): a non-empty Content-Type header decides alone by a
`text/html` substring test; with no header, the URL-extension heuristic,
then a byte-prefix sniff of the (lowercased, decoded) first kilobyte. -/
def isHtmlContent (contentTypeHeader currentUrl sampleLower : List Char) : Bool :=
  if !contentTypeHeader.isEmpty then
    hasSubstringL "text/html".toList (toLowerL contentTypeHeader)
  else if htmlExts.any (fun e => endsWithL e (toLowerL currentUrl)) ||
      endsWithChar '/' currentUrl then
    true
  else
    hasSubstringL "<html".toList sampleLower ||
    hasSubstringL "<!doctype html".toList sampleLower

/-- Directory segments of a mapped URL path (identical logic on the save side,
app.py lines 252-265, and the link side, lines 348-361): all segments for a
trailing-slash or empty path, otherwise all but the last. -/
def dirSegsOfPath (decodedPath : List Char) : List (List Char) :=
  let segs := pathSegments decodedPath
  if endsWithChar '/' decodedPath || segs.isEmpty then segs
  else segs.dropLast

/-- Link-side filename choice (app.py lines 348-361): `index.html` for a
trailing-slash/empty path; else the last segment, kept as-is when it contains
a dot, with `.html` appended only when `link_is_likely_html and not
is_asset_file`. -/
def linkFilename (decodedPath : List Char) (likelyHtml isAsset : Bool) : List Char :=
  let segs := pathSegments decodedPath
  if endsWithChar '/' decodedPath || segs.isEmpty then "index.html".toList
  else
    let f := lastD segs []
    if hasDotL f then f
    else if likelyHtml && !isAsset then f ++ ".html".toList
    else f

/-- Link-side filename with the fallback of app.py line 363. -/
def linkFilenameOr (decodedPath : List Char) (likelyHtml isAsset : Bool) : List Char :=
  let f := linkFilename decodedPath likelyHtml isAsset
  if f.isEmpty then "resource_default_name".toList else f

/-- Save-side filename choice for the fetched task itself
(app.py lines 252-265), driven by the fetched `is_html` classification. -/
def saveFilename (decodedPath : List Char) (isHtml : Bool) : List Char :=
  let segs := pathSegments decodedPath
  if endsWithChar '/' decodedPath || segs.isEmpty then "index.html".toList
  else
    let f := lastD segs []
    if hasDotL f then f
    else if isHtml then f ++ ".html".toList
    else f

/-- Save-side filename with the fallback of app.py lines 267-268. -/
def saveFilenameOr (decodedPath : List Char) (isHtml : Bool) : List Char :=
  let f := saveFilename decodedPath isHtml
  if f.isEmpty then (if isHtml then "index.html".toList else "resource".toList)
  else f

/-- Embeds `base_save_path_for_link` (app.py lines 333-336): the destination
root for the seed's domain, `destinationRoot/sanitize(domain)` otherwise. -/
def baseSavePathForLink (destRoot : List (List Char)) (seedDomain linkDomain : List Char) :
    List (List Char) :=
  if linkDomain == seedDomain then destRoot
  else destRoot ++ [sanitize_filename linkDomain]

/-- Embeds `final_asset_local_path` (app.py lines 365-369): the mapped local
path of a discovered reference, as a list of path segments. -/
def finalAssetLocalPath (destRoot : List (List Char)) (seedDomain linkDomain : List Char)
    (decodedPath : List Char) (likelyHtml isAsset : Bool) : List (List Char) :=
  baseSavePathForLink destRoot seedDomain linkDomain ++ dirSegsOfPath decodedPath ++
  [linkFilenameOr decodedPath likelyHtml isAsset]

/-- Embeds `local_file_path` (app.py lines 270-276): the save path of the task
currently being processed, below the `current_save_base_path_for_url` carried
by its queue entry. -/
def localFilePath (saveBase : List (List Char)) (decodedPath : List Char) (isHtml : Bool) :
    List (List Char) :=
  saveBase ++ dirSegsOfPath decodedPath ++ [saveFilenameOr decodedPath isHtml]

/-- The path segment `.`. -/
def dotSeg : List Char := ['.']

/-- The path segment `..`. -/
def dotdotSeg : List Char := ['.', '.']

/-- One step of filesystem path resolution: `.` is dropped, `..` removes the
last accumulated segment (at the filesystem root it is a no-op, as on POSIX),
anything else is appended. -/
def normStep (acc : List (List Char)) (s : List Char) : List (List Char) :=
  if s = dotSeg then acc
  else if s = dotdotSeg then acc.dropLast
  else acc ++ [s]

/-- Resolve a segment path the way the filesystem resolves it (no symlinks):
this is what a path means when the OS creates and writes the file. -/
def normalizePath (p : List (List Char)) : List (List Char) :=
  p.foldl normStep []

/-- `p` lies under `root`: after filesystem resolution, `root` is an initial
segment of `p`. -/
def liesUnder (root p : List (List Char)) : Prop :=
  normalizePath root <+: normalizePath p

instance (root p : List (List Char)) : Decidable (liesUnder root p) :=
  inferInstanceAs (Decidable (normalizePath root <+: normalizePath p))

/-- Length of the longest common initial run of two segment lists, as computed
by `posixpath.relpath` via `commonprefix` on the split components. -/
def commonPrefixLen : List (List Char) → List (List Char) → Nat
  | a :: as, b :: bs => if a = b then commonPrefixLen as bs + 1 else 0
  | _, _ => 0

/-- Embeds `os.path.relpath(path, start)` on already-absolute, already-split
segment lists: climb out of the uncommon tail of `start` with `..` segments,
then descend into the uncommon tail of `path`; an empty result is `.`. -/
def relpathSegs (path start : List (List Char)) : List (List Char) :=
  let i := commonPrefixLen path start
  let r := List.replicate (start.length - i) dotdotSeg ++ path.drop i
  if r.isEmpty then [dotSeg] else r

/-- Join segments with `/`: the `replace(os.sep, '/')` of app.py line 378
composed with the join. -/
def joinSlash : List (List Char) → List Char
  | [] => []
  | [s] => s
  | s :: rest => s ++ '/' :: joinSlash rest

/-- Embeds `new_link_value` (app.py lines 371-378): the relative path from the
owning document's directory to the reference's target local path, rendered
with forward slashes. -/
def newLinkValue (target docDir : List (List Char)) : List Char :=
  joinSlash (relpathSegs target docDir)

/-- Helper embedding Python `s.replace(old, new)` (all occurrences, scanning
left to right, non-overlapping). `skip` counts characters of a just-matched
occurrence that still have to be consumed without being re-examined. The
`pat.isEmpty` guard is unreachable in the embedded code path (app.py line 313
skips empty first candidates). -/
def pyReplaceAux (pat rep : List Char) : Nat → List Char → List Char
  | _, [] => []
  | skip, c :: cs =>
    match skip with
    | k + 1 => pyReplaceAux pat rep k cs
    | 0 =>
      if !pat.isEmpty && pat.isPrefixOf (c :: cs) then
        rep ++ pyReplaceAux pat rep (pat.length - 1) cs
      else c :: pyReplaceAux pat rep 0 cs

/-- Python `s.replace(pat, rep)` for a non-empty pattern. -/
def pyReplace (pat rep s : List Char) : List Char :=
  pyReplaceAux pat rep 0 s

/-- Embeds the first-candidate extraction of app.py line 312:
`[l.strip().split(' ')[0] for l in value.split(',')][0]`. -/
def firstSrcsetCandidate (v : List Char) : List Char :=
  (splitOnChar ' ' (pyStrip ((splitOnChar ',' v).headD []))).headD []

/-- Embeds the srcset attribute rewrite (app.py lines 311-314 and 383-386):
the first candidate URL is processed and the stored value is
`original.replace(first_candidate, new_value)`; an empty first candidate is
skipped (`continue`), leaving the attribute unchanged. -/
def srcsetRewrite (v newValue : List Char) : List Char :=
  let c := firstSrcsetCandidate v
  if c.isEmpty then v else pyReplace c newValue v

/-- The two clone modes accepted by `ClonerWorker` (app.py line 77). -/
inductive CloneType
  | recursive
  | singlePage
  deriving DecidableEq

/-- Embeds `should_queue` (app.py lines 408-413): recursive mode accepts
same-domain links; single-page mode accepts same-domain links discovered at
depth 0 only. -/
def shouldQueuePage (ct : CloneType) (depth : Nat) (sameDomain : Bool) : Bool :=
  match ct with
  | .recursive => sameDomain
  | .singlePage => depth == 0 && sameDomain

/-- A queue entry `(url, depth, current_save_base_path)` (app.py lines 198
and 416). -/
structure CrawlTask where
  url : List Char
  depth : Nat
  savePath : List (List Char)
  deriving DecidableEq

/-- What the scheduler sees of one discovered reference after resolution
(app.py lines 316-330): its absolute URL, that URL's domain, and the asset
classification. -/
structure LinkInfo where
  absoluteUrl : List Char
  domain : List Char
  isAsset : Bool
  deriving DecidableEq

/-- Run configuration fields relevant to scheduling; `seedDomain` is
`get_domain(base_url)`. -/
structure Config where
  seedUrl : List Char
  seedDomain : List Char
  destRoot : List (List Char)
  cloneType : CloneType
  maxDepth : Nat

/-- The scheduler state owned by the worker: `url_queue`, `visited_urls`
(modelled as a list used as a set) and, as a ghost field, the history of every
task ever appended to the queue (most recent first). -/
structure SchedState where
  queue : List CrawlTask
  visited : List (List Char)
  enqueued : List CrawlTask
  deriving DecidableEq

/-- Embeds app.py lines 196-199: the seed task enters the queue at depth 0
with the destination root as its save base, and the seed URL is pre-marked
visited before the loop starts. -/
def initState (cfg : Config) : SchedState :=
  { queue := [⟨cfg.seedUrl, 0, cfg.destRoot⟩],
    visited := [cfg.seedUrl],
    enqueued := [⟨cfg.seedUrl, 0, cfg.destRoot⟩] }

/-- Embeds the queue/visited effect of one discovered reference while
processing a page at depth `depth` (app.py lines 391-421): assets are
downloaded but never enqueued; a page link is accepted only when unvisited and
`depth < max_depth` and `should_queue` holds, in which case it is appended at
`depth + 1` together with its domain's base save path and immediately marked
visited. -/
def processLink (cfg : Config) (depth : Nat) (st : SchedState) (lk : LinkInfo) :
    SchedState :=
  if lk.isAsset then st
  else if lk.absoluteUrl ∉ st.visited ∧ depth < cfg.maxDepth then
    if shouldQueuePage cfg.cloneType depth (lk.domain == cfg.seedDomain) then
      { queue := st.queue ++
          [⟨lk.absoluteUrl, depth + 1, baseSavePathForLink cfg.destRoot cfg.seedDomain lk.domain⟩],
        visited := lk.absoluteUrl :: st.visited,
        enqueued := ⟨lk.absoluteUrl, depth + 1,
          baseSavePathForLink cfg.destRoot cfg.seedDomain lk.domain⟩ :: st.enqueued }
    else st
  else st

/-- The per-reference loop over one fetched page (app.py lines 299-424). -/
def processPage (cfg : Config) (depth : Nat) (links : List LinkInfo) (st : SchedState) :
    SchedState :=
  links.foldl (processLink cfg depth) st

/-- One iteration of the worker loop (app.py lines 203-206): pop the queue
head FIFO-style and process the references discovered on it. `pageLinks` is
the oracle giving the references found on each URL (a failed or non-HTML
fetch yields `[]`). -/
def runStep (cfg : Config) (pageLinks : List Char → List LinkInfo) (st : SchedState) :
    SchedState :=
  match st.queue with
  | [] => st
  | t :: rest => processPage cfg t.depth (pageLinks t.url) { st with queue := rest }

/-- The scheduler state after `n` loop iterations of a run. -/
def runTrace (cfg : Config) (pageLinks : List Char → List LinkInfo) : Nat → SchedState
  | 0 => initState cfg
  | n + 1 => runStep cfg pageLinks (runTrace cfg pageLinks n)

/-- A concrete configuration used by closed witness instances. -/
def cfgEx : Config :=
  ⟨"https://example.com/".toList, "example.com".toList, ["site".toList], .recursive, 5⟩

/-- A concrete link oracle used by closed witness instances: every page links
to the same same-domain page. -/
def oracleEx : List Char → List LinkInfo :=
  fun _ => [⟨"https://example.com/a".toList, "example.com".toList, false⟩]

/-- The failed-download placeholder of app.py line 401. -/
def failedDownloadPlaceholder (orig : List Char) : List Char :=
  "#FAILED_DOWNLOAD_".toList ++ orig

/-- Embeds the admission condition for one page link (app.py lines 402-415):
unvisited, below the depth limit, and allowed by the clone-mode policy. -/
def pageLinkAdmitted (visited : Bool) (depth maxDepth : Nat) (ct : CloneType)
    (sameDomain : Bool) : Bool :=
  !visited && decide (depth < maxDepth) && shouldQueuePage ct depth sameDomain

/-- Embeds the final value of a non-srcset reference attribute after the
branch chain of app.py lines 383-421: line 388 stores the computed relative
value; a failed asset download overwrites it with the placeholder (line 401);
the `elif` at line 420 restores the absolute URL for a cross-domain non-asset
link, but only when the `elif` at line 402 did not fire, i.e. only when the
link was already visited or the depth limit was reached. -/
def rewrittenAttrValue (isAsset fileMissingOrEmpty assetFetchFails visited : Bool)
    (depth maxDepth : Nat) (_ct : CloneType) (sameDomain : Bool)
    (relValue absoluteLink origValue : List Char) : List Char :=
  if isAsset then
    if fileMissingOrEmpty && assetFetchFails then failedDownloadPlaceholder origValue
    else relValue
  else if !visited && decide (depth < maxDepth) then relValue
  else if !sameDomain then absoluteLink
  else relValue

/-- Embeds the terminal status derivation of app.py lines 459-461. -/
def terminalStatus (stopRequested : Bool) (filesDownloaded : Nat) (queueEmpty : Bool) :
    List Char :=
  if stopRequested then "Stopped by user".toList
  else if filesDownloaded == 0 && queueEmpty then "Failed or nothing to download".toList
  else "Completed".toList

/-- Embeds the disk-space trip condition of app.py lines 278-281: the check
runs when `files_downloaded % 10 == 0` and trips when the free space is below
twice the size of the just-fetched payload. When it trips, line 282 calls the
bound signal `self.log_message(...)` without `.emit`; in PyQt such a call
raises `TypeError`, the handler at line 285 repeats the same mistake, so the
exception escapes the loop, line 283 (`stop_requested = True; break`) never
executes, and the in-flight file write (lines 427/431) is skipped. -/
def diskCheckTrips (filesDownloaded free contentLen : Nat) : Bool :=
  filesDownloaded % 10 == 0 && decide (free < 2 * contentLen)

/-- The in-flight task's file is written only when the disk check did not
abort the iteration. -/
def workerIterationWrites (filesDownloaded free contentLen : Nat) : Bool :=
  !diskCheckTrips filesDownloaded free contentLen

/-- Terminal status of a run aborted by the tripping disk check: the escaping
`TypeError` reaches the `finally` block with `stop_requested` still `False`,
so the ordinary derivation of lines 459-461 runs. -/
def lowDiskRunStatus (filesDownloaded : Nat) (queueEmpty : Bool) : List Char :=
  terminalStatus false filesDownloaded queueEmpty

/-- Which backend ends up serving a fetch. -/
inductive FetchVia
  | selenium
  | requests
  deriving DecidableEq

/-- The error raised by calling a bound PyQt signal directly. -/
def signalCallError : List Char :=
  "TypeError: native Qt signal is not callable".toList

/-- Embeds the backend selection for one task (app.py lines 213-224):
Selenium is attempted only for depth 0 when enabled; when the Selenium fetch
returns no content (initialization failure or driver error), the fallback
branch first calls `self.log_message(...)` without `.emit` (line 221), which
raises `TypeError` before `_fetch_page_with_requests` on line 222 can run. -/
def depthZeroFetchPath (useSelenium : Bool) (depth : Nat) (seleniumFetchSucceeds : Bool) :
    Except (List Char) FetchVia :=
  if useSelenium && depth == 0 then
    if seleniumFetchSucceeds then .ok .selenium
    else .error signalCallError
  else .ok .requests

/-- Folding `normStep` over segments that are never `..` just appends them,
dropping `.` segments. -/
theorem foldl_normStep_eq (t : List (List Char)) (h : ∀ s ∈ t, s ≠ dotdotSeg) :
    ∀ acc, List.foldl normStep acc t = acc ++ t.filter (fun s => !(s == dotSeg)) := by
  induction t with
  | nil => intro acc; simp
  | cons s t ih =>
    intro acc
    have hs : s ≠ dotdotSeg := h s (by simp)
    have ht : ∀ x ∈ t, x ≠ dotdotSeg := fun x hx => h x (by simp [hx])
    by_cases hdot : s = dotSeg
    · simp only [List.foldl_cons, normStep, if_pos hdot, List.filter_cons]
      rw [ih ht acc]
      simp [hdot]
    · simp only [List.foldl_cons, normStep, if_neg hdot, if_neg hs, List.filter_cons]
      rw [ih ht (acc ++ [s])]
      simp [hdot]

/-- Appending `..`-free segments to a root keeps the result under the root. -/
theorem liesUnder_append (r t : List (List Char)) (h : ∀ s ∈ t, s ≠ dotdotSeg) :
    liesUnder r (r ++ t) := by
  unfold liesUnder normalizePath
  rw [List.foldl_append, foldl_normStep_eq t h]
  exact ⟨_, rfl⟩

/-- Membership transfers out of `dropLast`. -/
theorem mem_of_mem_dropLast {α : Type} {a : α} {l : List α} (h : a ∈ l.dropLast) :
    a ∈ l :=
  (List.dropLast_sublist l).subset h

/-- `lastD` of a non-empty list is a member. -/
theorem lastD_mem (l : List (List Char)) (d : List Char) (h : l ≠ []) :
    lastD l d ∈ l := by
  induction l with
  | nil => exact absurd rfl h
  | cons a l ih =>
    cases l with
    | nil => simp [lastD]
    | cons b l' =>
      have h2 := ih (by simp)
      rw [show lastD (a :: b :: l') d = lastD (b :: l') d from rfl]
      exact List.mem_cons_of_mem a h2

/-- The directory segments of a mapped path all come from `pathSegments`. -/
theorem dirSegs_subset (p : List Char) : ∀ s ∈ dirSegsOfPath p, s ∈ pathSegments p := by
  intro s hs
  simp only [dirSegsOfPath] at hs
  split at hs
  · exact hs
  · exact mem_of_mem_dropLast hs

/-- When no sanitized segment is `..`, neither is the link-side filename. -/
theorem linkFilename_ne_dotdot (p : List Char) (lh ia : Bool)
    (h : ∀ s ∈ pathSegments p, s ≠ dotdotSeg) :
    linkFilename p lh ia ≠ dotdotSeg := by
  unfold linkFilename
  by_cases h1 : (endsWithChar '/' p || (pathSegments p).isEmpty) = true
  · simp only [if_pos h1]; decide
  · simp only [if_neg h1]
    have hne : pathSegments p ≠ [] := by
      intro hh
      exact h1 (by simp [hh])
    have hfd : lastD (pathSegments p) [] ≠ dotdotSeg := h _ (lastD_mem _ _ hne)
    by_cases h2 : hasDotL (lastD (pathSegments p) []) = true
    · simp only [if_pos h2]; exact hfd
    · simp only [if_neg h2]
      by_cases h3 : (lh && !ia) = true
      · simp only [if_pos h3]
        intro hc
        have hlen := congrArg List.length hc
        rw [List.length_append] at hlen
        have h5 : (".html".toList).length = 5 := by decide
        have h2' : dotdotSeg.length = 2 := by decide
        rw [h5, h2'] at hlen
        omega
      · simp only [if_neg h3]; exact hfd

/-- When no sanitized segment is `..`, neither is the link-side filename with
its fallback. -/
theorem linkFilenameOr_ne_dotdot (p : List Char) (lh ia : Bool)
    (h : ∀ s ∈ pathSegments p, s ≠ dotdotSeg) :
    linkFilenameOr p lh ia ≠ dotdotSeg := by
  unfold linkFilenameOr
  by_cases h1 : (linkFilename p lh ia).isEmpty = true
  · simp only [if_pos h1]; decide
  · simp only [if_neg h1]; exact linkFilename_ne_dotdot p lh ia h

/-- Claim C1, counterexample: the URL path `/../../evil.css` (e.g. obtained by
percent-decoding `%2e%2e`) keeps its `..` segments through
`sanitize_filename`, and the mapped save path for a same-domain URL escapes
the destination root `tmp/clone` — the claim's universally quantified
containment is false. -/
theorem c1_counterexample :
    ¬ liesUnder ["tmp".toList, "clone".toList]
      (finalAssetLocalPath ["tmp".toList, "clone".toList] "example.com".toList
        "example.com".toList "/../../evil.css".toList false true) := by decide

/-- Claim C1 (amended): the computed local save path of a discovered URL lies
under the run's destination root — directly under it for the seed's domain,
under `destinationRoot/sanitize(domain)` for any other domain — provided no
sanitized decoded path segment is `..` and the sanitized domain is not `..`;
`..` survives `sanitize_filename` and escapes the root. -/
theorem c1_mapped_path_lies_under (destRoot : List (List Char))
    (seedDomain linkDomain decodedPath : List Char) (likelyHtml isAsset : Bool)
    (hsegs : ∀ s ∈ pathSegments decodedPath, s ≠ dotdotSeg)
    (hdom : sanitize_filename linkDomain ≠ dotdotSeg) :
    liesUnder destRoot
      (finalAssetLocalPath destRoot seedDomain linkDomain decodedPath likelyHtml isAsset) := by
  unfold finalAssetLocalPath baseSavePathForLink
  by_cases hd : (linkDomain == seedDomain) = true
  · simp only [if_pos hd, List.append_assoc]
    apply liesUnder_append
    intro s hs
    rcases List.mem_append.mp hs with h | h
    · exact hsegs s (dirSegs_subset _ s h)
    · rw [List.mem_singleton] at h
      subst h
      exact linkFilenameOr_ne_dotdot _ _ _ hsegs
  · simp only [if_neg hd, List.append_assoc]
    apply liesUnder_append
    intro s hs
    simp only [List.mem_append, List.mem_singleton, List.mem_cons,
      List.not_mem_nil, or_false] at hs
    rcases hs with h | h | h
    · subst h; exact hdom
    · exact hsegs s (dirSegs_subset _ s h)
    · subst h; exact linkFilenameOr_ne_dotdot _ _ _ hsegs

/-- Witness for `c1_mapped_path_lies_under` at a concrete cross-domain URL. -/
theorem c1_mapped_path_lies_under_witness :
    liesUnder ["tmp".toList]
      (finalAssetLocalPath ["tmp".toList] "example.com".toList "cdn.example.com".toList
        "/img/logo.png".toList false true) :=
  c1_mapped_path_lies_under ["tmp".toList] "example.com".toList "cdn.example.com".toList
    "/img/logo.png".toList false true (by decide) (by decide)

/-- Claim C2: evaluating the attribute-rewrite chain at an unvisited
cross-domain page link at depth 0 with max depth 5 in recursive mode. The
link is not accepted for traversal, yet the attribute keeps the computed
relative value `ext/p.html` instead of being restored to the absolute URL:
the `elif` at app.py line 402 fires (unvisited, depth below max) without
queueing, so the restoring `elif` at line 420 is skipped. -/
theorem c2_unqueued_external_link_kept_relative :
    pageLinkAdmitted false 0 5 .recursive false = false ∧
    rewrittenAttrValue false false false false 0 5 .recursive false
      "ext/p.html".toList "https://other.com/p".toList "https://other.com/p".toList =
      "ext/p.html".toList ∧
    "ext/p.html".toList ≠ "https://other.com/p".toList := by decide

/-- Claim C3, counterexample: for the same-domain page link
`https://example.com/about` served as `text/html`, the save side appends
`.html` (the page is stored as `about.html`), but the link side, which only
sees the URL, rewrites the attribute to `about` — the two mappings disagree,
so the claim that the attribute is rewritten to `about.html` is false. -/
theorem c3_counterexample :
    localFilePath ["site".toList] "/about".toList
      (isHtmlContent "text/html".toList "https://example.com/about".toList []) =
      ["site".toList, "about.html".toList] ∧
    newLinkValue
      (finalAssetLocalPath ["site".toList] "example.com".toList "example.com".toList
        "/about".toList (linkIsLikelyHtml "https://example.com/about".toList)
        (isAssetFile "/about".toList "a".toList))
      ["site".toList] ≠ "about.html".toList := by decide

/-- Claim C3 (amended): the fetched page is indeed saved as `about.html`
under the destination root, but the referencing attribute is rewritten to
`about` (no extension): `link_is_likely_html` consults only the URL's
extension or a trailing slash, never the response content type, so the
link-side and save-side mappings disagree for an extensionless `text/html`
page. -/
theorem c3_about_saved_vs_rewritten :
    localFilePath ["site".toList] "/about".toList
      (isHtmlContent "text/html".toList "https://example.com/about".toList []) =
      ["site".toList, "about.html".toList] ∧
    newLinkValue
      (finalAssetLocalPath ["site".toList] "example.com".toList "example.com".toList
        "/about".toList (linkIsLikelyHtml "https://example.com/about".toList)
        (isAssetFile "/about".toList "a".toList))
      ["site".toList] = "about".toList := by decide

/-- Claim C4, counterexample: with 10 files downloaded, 5 bytes free and a
100-byte payload the disk check trips, but the run's terminal status is the
plain `Completed` — the success status — not a dedicated low-disk-space
status: the bare signal call raises before `stop_requested` is set, and no
low-disk status string exists anywhere in the code. -/
theorem c4_counterexample :
    diskCheckTrips 10 5 100 = true ∧
    lowDiskRunStatus 10 false = "Completed".toList := by decide

/-- Claim C4 (amended): whenever the periodic disk-space check finds free
space below twice the last payload on a checked iteration
(`files_downloaded % 10 == 0`), the iteration aborts before the in-flight
file is written, but through an escaping `TypeError` (the signal is called
without `.emit`), so the run ends with the ordinary status — `Completed`, or
`Failed or nothing to download` when nothing was saved and the queue is
empty — never with a dedicated low-disk-space status and never as `Stopped
by user`. -/
theorem c4_low_disk_outcome (files free len : Nat) (queueEmpty : Bool)
    (h1 : files % 10 = 0) (h2 : free < 2 * len) :
    diskCheckTrips files free len = true ∧
    workerIterationWrites files free len = false ∧
    (lowDiskRunStatus files queueEmpty = "Completed".toList ∨
     lowDiskRunStatus files queueEmpty = "Failed or nothing to download".toList) ∧
    lowDiskRunStatus files queueEmpty ≠ "Stopped by user".toList := by
  have htrip : diskCheckTrips files free len = true := by
    simp [diskCheckTrips, h1, h2]
  refine ⟨htrip, ?_, ?_, ?_⟩
  · simp [workerIterationWrites, htrip]
  · unfold lowDiskRunStatus terminalStatus
    by_cases hq : (files == 0 && queueEmpty) = true
    · rw [if_neg (by simp), if_pos hq]; right; rfl
    · rw [if_neg (by simp), if_neg hq]; left; rfl
  · unfold lowDiskRunStatus terminalStatus
    by_cases hq : (files == 0 && queueEmpty) = true
    · rw [if_neg (by simp), if_pos hq]; decide
    · rw [if_neg (by simp), if_neg hq]; decide

/-- Witness for `c4_low_disk_outcome` at a concrete tripped check. -/
theorem c4_low_disk_outcome_witness :
    diskCheckTrips 20 10 100 = true ∧
    workerIterationWrites 20 10 100 = false ∧
    (lowDiskRunStatus 20 true = "Completed".toList ∨
     lowDiskRunStatus 20 true = "Failed or nothing to download".toList) ∧
    lowDiskRunStatus 20 true ≠ "Stopped by user".toList :=
  c4_low_disk_outcome 20 10 100 true (by decide) (by decide)

/-- Case analysis on one reference-processing step: either the scheduler state
is unchanged, or the link was unvisited and below the depth limit and exactly
one task at depth `d + 1` was appended and marked visited. -/
theorem processLink_eq_or (cfg : Config) (d : Nat) (st : SchedState) (lk : LinkInfo) :
    processLink cfg d st lk = st ∨
    (lk.absoluteUrl ∉ st.visited ∧ d < cfg.maxDepth ∧
      processLink cfg d st lk =
        { queue := st.queue ++
            [⟨lk.absoluteUrl, d + 1, baseSavePathForLink cfg.destRoot cfg.seedDomain lk.domain⟩],
          visited := lk.absoluteUrl :: st.visited,
          enqueued := ⟨lk.absoluteUrl, d + 1,
            baseSavePathForLink cfg.destRoot cfg.seedDomain lk.domain⟩ :: st.enqueued }) := by
  unfold processLink
  by_cases h1 : lk.isAsset = true
  · rw [if_pos h1]; exact Or.inl rfl
  · rw [if_neg h1]
    by_cases h2 : lk.absoluteUrl ∉ st.visited ∧ d < cfg.maxDepth
    · rw [if_pos h2]
      by_cases h3 : shouldQueuePage cfg.cloneType d (lk.domain == cfg.seedDomain) = true
      · rw [if_pos h3]; exact Or.inr ⟨h2.1, h2.2, rfl⟩
      · rw [if_neg h3]; exact Or.inl rfl
    · rw [if_neg h2]; exact Or.inl rfl

/-- Processing a reference whose absolute URL is already visited never changes
the scheduler state: admission requires absence from the visited set. -/
theorem processLink_visited_noop (cfg : Config) (d : Nat) (st : SchedState) (lk : LinkInfo)
    (h : lk.absoluteUrl ∈ st.visited) :
    processLink cfg d st lk = st := by
  unfold processLink
  by_cases h1 : lk.isAsset = true
  · rw [if_pos h1]
  · rw [if_neg h1, if_neg (fun hc => hc.1 h)]

/-- One reference-processing step preserves the scheduler invariant (every
enqueued task's URL is visited, the enqueue history has no duplicate URL,
every enqueued depth is bounded by the configured maximum) and only grows the
visited set. -/
theorem processLink_inv (cfg : Config) (d : Nat) (st : SchedState) (lk : LinkInfo)
    (h1 : ∀ t ∈ st.enqueued, t.url ∈ st.visited)
    (h2 : (st.enqueued.map (fun t => t.url)).Nodup)
    (h3 : ∀ t ∈ st.enqueued, t.depth ≤ cfg.maxDepth) :
    (∀ t ∈ (processLink cfg d st lk).enqueued, t.url ∈ (processLink cfg d st lk).visited) ∧
    ((processLink cfg d st lk).enqueued.map (fun t => t.url)).Nodup ∧
    (∀ t ∈ (processLink cfg d st lk).enqueued, t.depth ≤ cfg.maxDepth) ∧
    (∀ u ∈ st.visited, u ∈ (processLink cfg d st lk).visited) := by
  rcases processLink_eq_or cfg d st lk with h | ⟨hv, hd, h⟩
  · rw [h]; exact ⟨h1, h2, h3, fun u hu => hu⟩
  · rw [h]
    refine ⟨?_, ?_, ?_, ?_⟩
    · intro t ht
      rcases List.mem_cons.mp ht with rfl | ht'
      · exact List.mem_cons_self _ _
      · exact List.mem_cons_of_mem _ (h1 t ht')
    · simp only [List.map_cons]
      rw [List.nodup_cons]
      refine ⟨?_, h2⟩
      intro hmem
      rcases List.mem_map.mp hmem with ⟨t, ht, hurl⟩
      exact hv (hurl ▸ h1 t ht)
    · intro t ht
      rcases List.mem_cons.mp ht with rfl | ht'
      · exact hd
      · exact h3 t ht'
    · intro u hu; exact List.mem_cons_of_mem _ hu

/-- The per-page reference loop preserves the scheduler invariant and only
grows the visited set. -/
theorem processPage_inv (cfg : Config) (d : Nat) (links : List LinkInfo) :
    ∀ st : SchedState,
      (∀ t ∈ st.enqueued, t.url ∈ st.visited) →
      (st.enqueued.map (fun t => t.url)).Nodup →
      (∀ t ∈ st.enqueued, t.depth ≤ cfg.maxDepth) →
      ((∀ t ∈ (processPage cfg d links st).enqueued,
          t.url ∈ (processPage cfg d links st).visited) ∧
       ((processPage cfg d links st).enqueued.map (fun t => t.url)).Nodup ∧
       (∀ t ∈ (processPage cfg d links st).enqueued, t.depth ≤ cfg.maxDepth) ∧
       (∀ u ∈ st.visited, u ∈ (processPage cfg d links st).visited)) := by
  induction links with
  | nil => intro st h1 h2 h3; exact ⟨h1, h2, h3, fun u hu => hu⟩
  | cons lk links ih =>
    intro st h1 h2 h3
    have step := processLink_inv cfg d st lk h1 h2 h3
    rw [show processPage cfg d (lk :: links) st =
      processPage cfg d links (processLink cfg d st lk) from rfl]
    have rec := ih (processLink cfg d st lk) step.1 step.2.1 step.2.2.1
    exact ⟨rec.1, rec.2.1, rec.2.2.1, fun u hu => rec.2.2.2 u (step.2.2.2 u hu)⟩

/-- One worker-loop iteration preserves the scheduler invariant and only
grows the visited set. -/
theorem runStep_inv (cfg : Config) (oracle : List Char → List LinkInfo) (st : SchedState)
    (h1 : ∀ t ∈ st.enqueued, t.url ∈ st.visited)
    (h2 : (st.enqueued.map (fun t => t.url)).Nodup)
    (h3 : ∀ t ∈ st.enqueued, t.depth ≤ cfg.maxDepth) :
    (∀ t ∈ (runStep cfg oracle st).enqueued, t.url ∈ (runStep cfg oracle st).visited) ∧
    ((runStep cfg oracle st).enqueued.map (fun t => t.url)).Nodup ∧
    (∀ t ∈ (runStep cfg oracle st).enqueued, t.depth ≤ cfg.maxDepth) ∧
    (∀ u ∈ st.visited, u ∈ (runStep cfg oracle st).visited) := by
  unfold runStep
  cases hq : st.queue with
  | nil => exact ⟨h1, h2, h3, fun u hu => hu⟩
  | cons t rest => exact processPage_inv cfg t.depth (oracle t.url) _ h1 h2 h3

/-- The scheduler invariant holds at every point of every run. -/
theorem runTrace_inv (cfg : Config) (oracle : List Char → List LinkInfo) :
    ∀ n : Nat,
      (∀ t ∈ (runTrace cfg oracle n).enqueued, t.url ∈ (runTrace cfg oracle n).visited) ∧
      ((runTrace cfg oracle n).enqueued.map (fun t => t.url)).Nodup ∧
      (∀ t ∈ (runTrace cfg oracle n).enqueued, t.depth ≤ cfg.maxDepth) := by
  intro n
  induction n with
  | zero =>
    refine ⟨?_, ?_, ?_⟩
    · intro t ht
      rcases List.mem_singleton.mp ht with rfl
      exact List.mem_singleton.mpr rfl
    · simp [initState, runTrace]
    · intro t ht
      rcases List.mem_singleton.mp ht with rfl
      exact Nat.zero_le _
  | succ n ih =>
    have step := runStep_inv cfg oracle (runTrace cfg oracle n) ih.1 ih.2.1 ih.2.2
    exact ⟨step.1, step.2.1, step.2.2.1⟩

/-- Claim C7: the seed URL is pre-marked visited before the loop starts; every
enqueued task's URL is in the visited set (each enqueue immediately inserts
its URL); a reference whose absolute URL is already visited leaves the
scheduler state untouched (admission requires absence from the visited set);
visited-set membership is monotonic from one loop iteration to the next; and
the full enqueue history of any run never contains the same URL twice. -/
theorem c7_visited_monotone_no_reenqueue (cfg : Config)
    (oracle : List Char → List LinkInfo) (n : Nat) :
    cfg.seedUrl ∈ (runTrace cfg oracle 0).visited ∧
    (∀ t ∈ (runTrace cfg oracle n).enqueued, t.url ∈ (runTrace cfg oracle n).visited) ∧
    (∀ (d : Nat) (st : SchedState) (lk : LinkInfo),
      lk.absoluteUrl ∈ st.visited → processLink cfg d st lk = st) ∧
    (∀ u ∈ (runTrace cfg oracle n).visited, u ∈ (runTrace cfg oracle (n + 1)).visited) ∧
    ((runTrace cfg oracle n).enqueued.map (fun t => t.url)).Nodup := by
  have inv := runTrace_inv cfg oracle n
  refine ⟨List.mem_singleton.mpr rfl, inv.1, ?_, ?_, inv.2.1⟩
  · intro d st lk h; exact processLink_visited_noop cfg d st lk h
  · exact (runStep_inv cfg oracle (runTrace cfg oracle n) inv.1 inv.2.1 inv.2.2).2.2.2

/-- Witness for `c7_visited_monotone_no_reenqueue` on a concrete two-step
run: the enqueue history is duplicate-free and the seed task's URL is
visited. -/
theorem c7_visited_monotone_no_reenqueue_witness :
    ((runTrace cfgEx oracleEx 2).enqueued.map (fun t => t.url)).Nodup ∧
    (⟨cfgEx.seedUrl, 0, cfgEx.destRoot⟩ : CrawlTask).url ∈
      (runTrace cfgEx oracleEx 0).visited :=
  ⟨(c7_visited_monotone_no_reenqueue cfgEx oracleEx 2).2.2.2.2,
   (c7_visited_monotone_no_reenqueue cfgEx oracleEx 0).2.1 _ (by decide)⟩

/-- Claim C8: the root task is enqueued with depth 0; every task enqueued
while processing a page at depth `d` is either an old entry or has depth
exactly `d + 1`; and every task ever enqueued in any run has depth at most
the configured maximum, because admission requires `d < max_depth`. -/
theorem c8_depth_discipline (cfg : Config) (oracle : List Char → List LinkInfo) (n : Nat) :
    (initState cfg).enqueued = [⟨cfg.seedUrl, 0, cfg.destRoot⟩] ∧
    (∀ (d : Nat) (st : SchedState) (lk : LinkInfo) (t : CrawlTask),
      t ∈ (processLink cfg d st lk).enqueued → t ∈ st.enqueued ∨ t.depth = d + 1) ∧
    (∀ t ∈ (runTrace cfg oracle n).enqueued, t.depth ≤ cfg.maxDepth) := by
  refine ⟨rfl, ?_, (runTrace_inv cfg oracle n).2.2⟩
  intro d st lk t ht
  rcases processLink_eq_or cfg d st lk with h | ⟨_, _, h⟩
  · rw [h] at ht; exact Or.inl ht
  · rw [h] at ht
    rcases List.mem_cons.mp ht with rfl | ht'
    · exact Or.inr rfl
    · exact Or.inl ht'

/-- Witness for `c8_depth_discipline` on a concrete two-step run: the task
enqueued while processing the depth-0 seed has depth 1, within the limit. -/
theorem c8_depth_discipline_witness :
    (initState cfgEx).enqueued = [⟨cfgEx.seedUrl, 0, cfgEx.destRoot⟩] ∧
    (⟨"https://example.com/a".toList, 1, ["site".toList]⟩ : CrawlTask).depth ≤
      cfgEx.maxDepth :=
  ⟨(c8_depth_discipline cfgEx oracleEx 2).1,
   (c8_depth_discipline cfgEx oracleEx 2).2.2 _ (by decide)⟩

/-- A list is a Boolean prefix of itself followed by anything. -/
theorem isPrefixOf_append_self (l t : List Char) : l.isPrefixOf (l ++ t) = true := by
  induction l with
  | nil => simp [List.isPrefixOf]
  | cons a l ih => simp [List.isPrefixOf, ih]

/-- A positive skip count consumes characters one by one. -/
theorem pyReplaceAux_skip (pat rep : List Char) :
    ∀ (t₁ t₂ : List Char), pyReplaceAux pat rep t₁.length (t₁ ++ t₂) =
      pyReplaceAux pat rep 0 t₂ := by
  intro t₁
  induction t₁ with
  | nil => intro t₂; rfl
  | cons a t₁ ih =>
    intro t₂
    simp only [List.length_cons, List.cons_append]
    rw [show pyReplaceAux pat rep (t₁.length + 1) (a :: (t₁ ++ t₂)) =
      pyReplaceAux pat rep t₁.length (t₁ ++ t₂) from rfl]
    exact ih t₂

/-- Replacing a pattern that does not occur leaves the string unchanged. -/
theorem pyReplaceAux_no_sub (pat rep : List Char) :
    ∀ t, hasSubstringL pat t = false → pyReplaceAux pat rep 0 t = t := by
  intro t
  induction t with
  | nil => intro _; rfl
  | cons c cs ih =>
    intro h
    rw [show hasSubstringL pat (c :: cs) =
      (pat.isPrefixOf (c :: cs) || hasSubstringL pat cs) from rfl] at h
    rcases Bool.or_eq_false_iff.mp h with ⟨h1, h2⟩
    rw [show pyReplaceAux pat rep 0 (c :: cs) =
      (if !pat.isEmpty && pat.isPrefixOf (c :: cs) then
        rep ++ pyReplaceAux pat rep (pat.length - 1) cs
      else c :: pyReplaceAux pat rep 0 cs) from rfl]
    rw [if_neg (by simp [h1])]
    rw [ih h2]

/-- Python `replace` on a string that starts with the pattern, when the
pattern does not occur again in the remainder, substitutes exactly once. -/
theorem pyReplace_head (pat rep rest : List Char) (h : pat ≠ [])
    (h2 : hasSubstringL pat rest = false) :
    pyReplace pat rep (pat ++ rest) = rep ++ rest := by
  unfold pyReplace
  cases pat with
  | nil => exact absurd rfl h
  | cons p ps =>
    rw [List.cons_append]
    rw [show pyReplaceAux (p :: ps) rep 0 (p :: (ps ++ rest)) =
      (if !(p :: ps).isEmpty && (p :: ps).isPrefixOf (p :: (ps ++ rest)) then
        rep ++ pyReplaceAux (p :: ps) rep ((p :: ps).length - 1) (ps ++ rest)
      else p :: pyReplaceAux (p :: ps) rep 0 (ps ++ rest)) from rfl]
    rw [if_pos (by simp [isPrefixOf_append_self (p :: ps) rest])]
    simp only [List.length_cons, Nat.add_sub_cancel]
    rw [pyReplaceAux_skip (p :: ps) rep ps rest, pyReplaceAux_no_sub (p :: ps) rep rest h2]

/-- The common initial run is no longer than the first list. -/
theorem cpl_le_left : ∀ (a b : List (List Char)), commonPrefixLen a b ≤ a.length := by
  intro a
  induction a with
  | nil => intro b; cases b <;> simp [commonPrefixLen]
  | cons x a ih =>
    intro b
    cases b with
    | nil => simp [commonPrefixLen]
    | cons y b =>
      rw [show commonPrefixLen (x :: a) (y :: b) =
        (if x = y then commonPrefixLen a b + 1 else 0) from rfl]
      by_cases h : x = y
      · rw [if_pos h]
        simpa using ih b
      · rw [if_neg h]; exact Nat.zero_le _

/-- The common initial run is no longer than the second list. -/
theorem cpl_le_right : ∀ (a b : List (List Char)), commonPrefixLen a b ≤ b.length := by
  intro a
  induction a with
  | nil => intro b; cases b <;> simp [commonPrefixLen]
  | cons x a ih =>
    intro b
    cases b with
    | nil => simp [commonPrefixLen]
    | cons y b =>
      rw [show commonPrefixLen (x :: a) (y :: b) =
        (if x = y then commonPrefixLen a b + 1 else 0) from rfl]
      by_cases h : x = y
      · rw [if_pos h]
        simpa using ih b
      · rw [if_neg h]; exact Nat.zero_le _

/-- Both lists agree on their common initial run. -/
theorem take_cpl : ∀ (a b : List (List Char)),
    a.take (commonPrefixLen a b) = b.take (commonPrefixLen a b) := by
  intro a
  induction a with
  | nil => intro b; cases b <;> rfl
  | cons x a ih =>
    intro b
    cases b with
    | nil => rfl
    | cons y b =>
      by_cases h : x = y
      · rw [show commonPrefixLen (x :: a) (y :: b) =
          (if x = y then commonPrefixLen a b + 1 else 0) from rfl, if_pos h]
        rw [show (x :: a).take (commonPrefixLen a b + 1) =
          x :: a.take (commonPrefixLen a b) from rfl]
        rw [show (y :: b).take (commonPrefixLen a b + 1) =
          y :: b.take (commonPrefixLen a b) from rfl]
        rw [h, ih b]
      · rw [show commonPrefixLen (x :: a) (y :: b) =
          (if x = y then commonPrefixLen a b + 1 else 0) from rfl, if_neg h]
        rfl

/-- `dropLast` is `take` of one less than the length. -/
theorem dropLast_eq_take_sub_one {α : Type} : ∀ l : List α, l.dropLast = l.take (l.length - 1) := by
  intro l
  induction l with
  | nil => rfl
  | cons a l ih =>
    cases l with
    | nil => rfl
    | cons b l' =>
      rw [show (a :: b :: l').dropLast = a :: (b :: l').dropLast from rfl, ih]
      rw [show (a :: b :: l').length - 1 = ((b :: l').length - 1) + 1 from by simp]
      rfl

/-- Folding `k` `..` segments pops the last `k` accumulated segments. -/
theorem foldl_normStep_replicate : ∀ (k : Nat) (l : List (List Char)),
    List.foldl normStep l (List.replicate k dotdotSeg) = l.take (l.length - k) := by
  intro k
  induction k with
  | zero => intro l; simp
  | succ k ih =>
    intro l
    rw [List.replicate_succ, List.foldl_cons]
    have hstep : normStep l dotdotSeg = l.dropLast := by
      unfold normStep
      rw [if_neg (by decide), if_pos rfl]
    rw [hstep, ih l.dropLast, dropLast_eq_take_sub_one]
    have h1 : (l.take (l.length - 1)).length = l.length - 1 := by
      rw [List.length_take]; exact Nat.min_eq_left (Nat.sub_le _ _)
    rw [h1, List.take_take]
    congr 1
    rw [Nat.min_eq_left (Nat.sub_le _ _)]
    omega

/-- A path without `.` or `..` segments resolves to itself. -/
theorem normalizePath_eq_self (l : List (List Char))
    (h : ∀ s ∈ l, s ≠ dotSeg ∧ s ≠ dotdotSeg) : normalizePath l = l := by
  unfold normalizePath
  rw [foldl_normStep_eq l (fun s hs => (h s hs).2) [], List.nil_append]
  apply List.filter_eq_self.mpr
  intro a ha
  simp [(h a ha).1]

/-- Resolving the embedded `os.path.relpath` output from the starting
directory lands exactly on the target path. -/
theorem relpath_resolves (target docDir : List (List Char))
    (ht : ∀ s ∈ target, s ≠ dotSeg ∧ s ≠ dotdotSeg)
    (hd : ∀ s ∈ docDir, s ≠ dotSeg ∧ s ≠ dotdotSeg) :
    normalizePath (docDir ++ relpathSegs target docDir) = target := by
  have hnd : normalizePath docDir = docDir := normalizePath_eq_self docDir hd
  have hi1 : commonPrefixLen target docDir ≤ target.length := cpl_le_left _ _
  have hi2 : commonPrefixLen target docDir ≤ docDir.length := cpl_le_right _ _
  simp only [relpathSegs]
  by_cases hr : (List.replicate (docDir.length - commonPrefixLen target docDir) dotdotSeg ++
      target.drop (commonPrefixLen target docDir)).isEmpty = true
  · rw [if_pos hr]
    rw [List.isEmpty_iff] at hr
    rcases List.append_eq_nil.mp hr with ⟨h1, h2⟩
    have hk : docDir.length - commonPrefixLen target docDir = 0 := by
      have := congrArg List.length h1
      simpa using this
    have hdrop : target.length ≤ commonPrefixLen target docDir := by
      have := congrArg List.length h2
      simp at this
      omega
    have hEq : commonPrefixLen target docDir = target.length := le_antisymm hi1 hdrop
    have hEq2 : docDir.length = commonPrefixLen target docDir := by omega
    have htd : docDir = target :=
      calc docDir = docDir.take docDir.length := (List.take_length _).symm
        _ = docDir.take (commonPrefixLen target docDir) := by rw [hEq2]
        _ = target.take (commonPrefixLen target docDir) := (take_cpl target docDir).symm
        _ = target.take target.length := by rw [hEq]
        _ = target := List.take_length _
    unfold normalizePath
    rw [List.foldl_append]
    rw [show List.foldl normStep [] docDir = normalizePath docDir from rfl, hnd]
    rw [show List.foldl normStep docDir [dotSeg] = normStep docDir dotSeg from rfl]
    unfold normStep
    rw [if_pos rfl]
    exact htd
  · rw [if_neg hr]
    unfold normalizePath
    rw [List.foldl_append, List.foldl_append]
    rw [show List.foldl normStep [] docDir = normalizePath docDir from rfl, hnd]
    rw [foldl_normStep_replicate]
    rw [show docDir.length - (docDir.length - commonPrefixLen target docDir) =
      commonPrefixLen target docDir from by omega]
    rw [foldl_normStep_eq (target.drop (commonPrefixLen target docDir))
      (fun s hs => (ht s (List.drop_subset _ _ hs)).2)]
    have hfilter : (target.drop (commonPrefixLen target docDir)).filter
        (fun s => !(s == dotSeg)) = target.drop (commonPrefixLen target docDir) :=
      List.filter_eq_self.mpr (fun a ha => by simp [(ht a (List.drop_subset _ _ ha)).1])
    rw [hfilter, ← take_cpl target docDir]
    exact List.take_append_drop _ _

/-- Claim C9: the rewritten attribute value is the relative filesystem path
from the owning document's directory to the reference's target local path,
joined with forward slashes — resolving it from the document's directory
reaches exactly the target (for dot-free resolved paths, as produced by
`os.path.abspath`); in particular a document in `root/a/b` referencing
`root/c/style.css` gets the value `../../c/style.css`. -/
theorem c9_relative_rewrite :
    (∀ target docDir : List (List Char),
      (∀ s ∈ target, s ≠ dotSeg ∧ s ≠ dotdotSeg) →
      (∀ s ∈ docDir, s ≠ dotSeg ∧ s ≠ dotdotSeg) →
      normalizePath (docDir ++ relpathSegs target docDir) = target) ∧
    newLinkValue ["root".toList, "c".toList, "style.css".toList]
      ["root".toList, "a".toList, "b".toList] = "../../c/style.css".toList :=
  ⟨fun target docDir ht hd => relpath_resolves target docDir ht hd, by decide⟩

/-- Witness for `c9_relative_rewrite` at the concrete example of the claim. -/
theorem c9_relative_rewrite_witness :
    normalizePath (["root".toList, "a".toList, "b".toList] ++
      relpathSegs ["root".toList, "c".toList, "style.css".toList]
        ["root".toList, "a".toList, "b".toList]) =
      ["root".toList, "c".toList, "style.css".toList] :=
  c9_relative_rewrite.1 _ _ (by decide) (by decide)

/-- Claim C6, counterexample: in the srcset value `a.png 1x,a.png2 2x` the
first candidate URL `a.png` occurs as a substring of the second candidate, so
`original.replace(first, new)` also rewrites the second candidate: the
remaining candidates do not appear unchanged. -/
theorem c6_counterexample :
    srcsetRewrite "a.png 1x,a.png2 2x".toList "x.png".toList =
      "x.png 1x,x.png2 2x".toList ∧
    (splitOnChar ',' (srcsetRewrite "a.png 1x,a.png2 2x".toList "x.png".toList)).tail ≠
      (splitOnChar ',' "a.png 1x,a.png2 2x".toList).tail := by decide

/-- Claim C6 (amended): only the first srcset candidate is processed, and the
stored value is the original with every occurrence of the first candidate URL
replaced by the new value; the remaining candidates appear character-for-
character unchanged only when the first candidate URL does not occur again in
the rest of the value — here stated for a value beginning with its first
candidate, whose remainder is then left untouched. -/
theorem c6_srcset_first_candidate_only (v c rest newValue : List Char)
    (hc : firstSrcsetCandidate v = c) (hne : c ≠ [])
    (hv : v = c ++ rest) (hrest : hasSubstringL c rest = false) :
    srcsetRewrite v newValue = newValue ++ rest := by
  subst hv
  have hE : c.isEmpty = false := by
    cases c with
    | nil => exact absurd rfl hne
    | cons a l => rfl
  simp only [srcsetRewrite, hc]
  rw [if_neg (by simp [hE])]
  exact pyReplace_head c newValue rest hne hrest

/-- Witness for `c6_srcset_first_candidate_only` on a srcset whose candidates
do not overlap. -/
theorem c6_srcset_first_candidate_only_witness :
    srcsetRewrite "a.png 1x,b.png 2x".toList "x.png".toList =
      "x.png".toList ++ " 1x,b.png 2x".toList :=
  c6_srcset_first_candidate_only "a.png 1x,b.png 2x".toList "a.png".toList
    " 1x,b.png 2x".toList "x.png".toList (by decide) (by decide) (by decide) (by decide)

/-- A string has two consecutive underscores exactly when it splits around
an `__` infix. -/
theorem hDU_iff : ∀ l : List Char,
    hasDoubleUnderscore l = true ↔ ∃ p q, l = p ++ '_' :: '_' :: q := by
  intro l
  induction l with
  | nil =>
    constructor
    · intro h; exact absurd h (by decide)
    · rintro ⟨p, q, h⟩
      cases p <;> simp at h
  | cons a t ih =>
    cases t with
    | nil =>
      constructor
      · intro h
        rw [show hasDoubleUnderscore [a] = false from rfl] at h
        exact absurd h (by decide)
      · rintro ⟨p, q, h⟩
        cases p with
        | nil => simp at h
        | cons x p' => simp at h
    | cons b t' =>
      rw [show hasDoubleUnderscore (a :: b :: t') =
        (((a = '_') && (b = '_')) || hasDoubleUnderscore (b :: t')) from rfl]
      constructor
      · intro h
        rw [Bool.or_eq_true] at h
        rcases h with h1 | h2
        · rw [Bool.and_eq_true] at h1
          have ha : a = '_' := of_decide_eq_true h1.1
          have hb : b = '_' := of_decide_eq_true h1.2
          exact ⟨[], t', by rw [ha, hb]; rfl⟩
        · rcases ih.mp h2 with ⟨p, q, hpq⟩
          exact ⟨a :: p, q, by rw [List.cons_append, ← hpq]⟩
      · rintro ⟨p, q, hpq⟩
        cases p with
        | nil =>
          rw [List.nil_append] at hpq
          injection hpq with h1 h2
          injection h2 with h3 _
          rw [Bool.or_eq_true]
          left
          rw [h1, h3]
          decide
        | cons x p' =>
          rw [List.cons_append] at hpq
          injection hpq with _ h2
          rw [Bool.or_eq_true]
          right
          exact ih.mpr ⟨p', q, h2⟩

/-- Truncation cannot introduce consecutive underscores. -/
theorem hDU_false_take (l : List Char) (n : Nat) (h : hasDoubleUnderscore l = false) :
    hasDoubleUnderscore (l.take n) = false := by
  by_contra hc
  rw [Bool.not_eq_false] at hc
  rcases (hDU_iff _).mp hc with ⟨p, q, hpq⟩
  have hl : l = p ++ '_' :: '_' :: (q ++ l.drop n) := by
    conv_lhs => rw [← List.take_append_drop n l]
    rw [hpq]
    simp
  have := (hDU_iff l).mpr ⟨p, q ++ l.drop n, hl⟩
  rw [h] at this
  exact absurd this (by decide)

/-- `dropWhile` returns a suffix. -/
theorem dropWhile_suffix_exists (p : Char → Bool) :
    ∀ l : List Char, ∃ pre, pre ++ l.dropWhile p = l := by
  intro l
  induction l with
  | nil => exact ⟨[], rfl⟩
  | cons a t ih =>
    by_cases h : p a = true
    · rcases ih with ⟨pre, hpre⟩
      refine ⟨a :: pre, ?_⟩
      rw [List.dropWhile_cons_of_pos h, List.cons_append, hpre]
    · refine ⟨[], ?_⟩
      rw [List.dropWhile_cons_of_neg h, List.nil_append]

/-- Dropping a run from the front cannot introduce consecutive underscores. -/
theorem hDU_false_dropWhile (p : Char → Bool) (l : List Char)
    (h : hasDoubleUnderscore l = false) :
    hasDoubleUnderscore (l.dropWhile p) = false := by
  by_contra hc
  rw [Bool.not_eq_false] at hc
  rcases (hDU_iff _).mp hc with ⟨p', q, hpq⟩
  rcases dropWhile_suffix_exists p l with ⟨pre, hpre⟩
  have hl : l = (pre ++ p') ++ '_' :: '_' :: q := by
    rw [← hpre, hpq, List.append_assoc]
  have := (hDU_iff l).mpr ⟨pre ++ p', q, hl⟩
  rw [h] at this
  exact absurd this (by decide)

/-- Consecutive underscores are preserved by reversal. -/
theorem hDU_reverse (l : List Char) :
    hasDoubleUnderscore l.reverse = hasDoubleUnderscore l := by
  have key : ∀ m : List Char, hasDoubleUnderscore m.reverse = true →
      hasDoubleUnderscore m = true := by
    intro m hm
    rcases (hDU_iff _).mp hm with ⟨p, q, hpq⟩
    apply (hDU_iff m).mpr
    refine ⟨q.reverse, p.reverse, ?_⟩
    have hm2 : m = (p ++ '_' :: '_' :: q).reverse := by rw [← hpq, List.reverse_reverse]
    rw [hm2]
    simp
  cases hrev : hasDoubleUnderscore l.reverse with
  | false =>
    symm
    by_contra hc
    rw [Bool.not_eq_false] at hc
    have := key l.reverse (by rw [List.reverse_reverse]; exact hc)
    rw [hrev] at this
    exact absurd this (by decide)
  | true => exact (key l hrev).symm

/-- Stripping characters from both ends cannot introduce consecutive
underscores. -/
theorem hDU_false_stripChar (p : Char → Bool) (l : List Char)
    (h : hasDoubleUnderscore l = false) :
    hasDoubleUnderscore (stripChar p l) = false := by
  unfold stripChar
  rw [hDU_reverse]
  apply hDU_false_dropWhile
  rw [hDU_reverse]
  exact hDU_false_dropWhile p l h

/-- After collapsing, the head of a run continuation is never an underscore. -/
theorem collapseAux_true_head : ∀ (l : List Char) (c : Char) (cs : List Char),
    collapseAux true l = c :: cs → c ≠ '_' := by
  intro l
  induction l with
  | nil =>
    intro c cs h
    exact absurd h (by rw [show collapseAux true [] = [] from rfl]; exact fun hh => List.noConfusion hh)
  | cons a t ih =>
    intro c cs h
    rw [show collapseAux true (a :: t) =
      (if a = '_' then collapseAux true t else a :: collapseAux false t) from rfl] at h
    by_cases ha : a = '_'
    · rw [if_pos ha] at h
      exact ih c cs h
    · rw [if_neg ha] at h
      injection h with h1 _
      rw [← h1]
      exact ha

/-- The collapse pass never leaves two consecutive underscores. -/
theorem collapseAux_hDU_false : ∀ (l : List Char) (b : Bool),
    hasDoubleUnderscore (collapseAux b l) = false := by
  intro l
  induction l with
  | nil => intro b; cases b <;> rfl
  | cons a t ih =>
    intro b
    by_cases ha : a = '_'
    · cases b with
      | true =>
        rw [show collapseAux true (a :: t) =
          (if a = '_' then collapseAux true t else a :: collapseAux false t) from rfl,
          if_pos ha]
        exact ih true
      | false =>
        rw [show collapseAux false (a :: t) =
          (if a = '_' then '_' :: collapseAux true t else a :: collapseAux false t) from rfl,
          if_pos ha]
        cases hX : collapseAux true t with
        | nil => rfl
        | cons c cs =>
          have hc : c ≠ '_' := collapseAux_true_head t c cs hX
          have h2 : hasDoubleUnderscore (c :: cs) = false := by rw [← hX]; exact ih true
          rw [show hasDoubleUnderscore ('_' :: c :: cs) =
            (((('_' : Char) = '_') && (c = '_')) || hasDoubleUnderscore (c :: cs)) from rfl]
          rw [h2]
          simp [hc]
    · have hred : collapseAux b (a :: t) = a :: collapseAux false t := by
        cases b with
        | true =>
          rw [show collapseAux true (a :: t) =
            (if a = '_' then collapseAux true t else a :: collapseAux false t) from rfl,
            if_neg ha]
        | false =>
          rw [show collapseAux false (a :: t) =
            (if a = '_' then '_' :: collapseAux true t else a :: collapseAux false t) from rfl,
            if_neg ha]
      rw [hred]
      cases hX : collapseAux false t with
      | nil => rfl
      | cons c cs =>
        have h2 : hasDoubleUnderscore (c :: cs) = false := by rw [← hX]; exact ih false
        rw [show hasDoubleUnderscore (a :: c :: cs) =
          (((a = '_') && (c = '_')) || hasDoubleUnderscore (c :: cs)) from rfl]
        rw [h2]
        simp [ha]

/-- Every character of a collapsed string comes from the input. -/
theorem mem_collapseAux : ∀ (l : List Char) (b : Bool) (c : Char),
    c ∈ collapseAux b l → c ∈ l := by
  intro l
  induction l with
  | nil =>
    intro b c h
    rw [show collapseAux b [] = [] from by cases b <;> rfl] at h
    exact absurd h (List.not_mem_nil c)
  | cons a t ih =>
    intro b c h
    by_cases ha : a = '_'
    · cases b with
      | true =>
        rw [show collapseAux true (a :: t) =
          (if a = '_' then collapseAux true t else a :: collapseAux false t) from rfl,
          if_pos ha] at h
        exact List.mem_cons_of_mem a (ih true c h)
      | false =>
        rw [show collapseAux false (a :: t) =
          (if a = '_' then '_' :: collapseAux true t else a :: collapseAux false t) from rfl,
          if_pos ha] at h
        rcases List.mem_cons.mp h with rfl | h'
        · rw [ha]; exact List.mem_cons_self _ _
        · exact List.mem_cons_of_mem a (ih true c h')
    · have hred : collapseAux b (a :: t) = a :: collapseAux false t := by
        cases b with
        | true =>
          rw [show collapseAux true (a :: t) =
            (if a = '_' then collapseAux true t else a :: collapseAux false t) from rfl,
            if_neg ha]
        | false =>
          rw [show collapseAux false (a :: t) =
            (if a = '_' then '_' :: collapseAux true t else a :: collapseAux false t) from rfl,
            if_neg ha]
      rw [hred] at h
      rcases List.mem_cons.mp h with rfl | h'
      · exact List.mem_cons_self _ _
      · exact List.mem_cons_of_mem a (ih false c h')

/-- Every character surviving `dropWhile` was in the input. -/
theorem mem_of_mem_dropWhile (p : Char → Bool) :
    ∀ (l : List Char) (c : Char), c ∈ l.dropWhile p → c ∈ l := by
  intro l
  induction l with
  | nil => intro c h; exact h
  | cons a t ih =>
    intro c h
    by_cases hp : p a = true
    · rw [List.dropWhile_cons_of_pos hp] at h
      exact List.mem_cons_of_mem a (ih c h)
    · rw [List.dropWhile_cons_of_neg hp] at h
      exact h

/-- Every character surviving the two-sided strip was in the input. -/
theorem mem_stripChar (p : Char → Bool) (l : List Char) (c : Char)
    (h : c ∈ stripChar p l) : c ∈ l := by
  unfold stripChar at h
  rw [List.mem_reverse] at h
  have h2 := mem_of_mem_dropWhile p _ c h
  rw [List.mem_reverse] at h2
  exact mem_of_mem_dropWhile p l c h2

/-- The replacement pass leaves no character of the illegal class. -/
theorem replaceIllegal_chars (s : List Char) : ∀ c ∈ replaceIllegal s, illegalChar c = false := by
  intro c hc
  rcases List.mem_map.mp hc with ⟨d, _, hd⟩
  by_cases h : illegalChar d = true
  · rw [if_pos h] at hd; rw [← hd]; decide
  · rw [if_neg h] at hd
    rw [Bool.not_eq_true] at h
    rw [← hd]
    exact h

/-- Claim C10: for every input, `sanitize_filename` returns a non-empty
string of length at most 200 that contains no filesystem-illegal character
(`< > : " / \ | ? *` or a control character `0x00`-`0x1f`) and no two
consecutive underscores, and an input whose replaced/collapsed/stripped form
is empty yields the placeholder `untitled`. -/
theorem c10_sanitize_filename_spec (s : List Char) :
    sanitize_filename s ≠ [] ∧
    (sanitize_filename s).length ≤ 200 ∧
    (∀ c ∈ sanitize_filename s, illegalChar c = false) ∧
    hasDoubleUnderscore (sanitize_filename s) = false ∧
    (stripChar underscoreOrSpace (collapseUnderscores (replaceIllegal s)) = [] →
      sanitize_filename s = "untitled".toList) := by
  set t := stripChar underscoreOrSpace (collapseUnderscores (replaceIllegal s)) with ht
  have hsan : sanitize_filename s = (if t = [] then "untitled".toList else t).take 200 := rfl
  refine ⟨?_, ?_, ?_, ?_, ?_⟩
  · rw [hsan]
    by_cases h : t = []
    · rw [if_pos h]; decide
    · rw [if_neg h]
      intro hc
      have hlen := congrArg List.length hc
      rw [List.length_take, List.length_nil] at hlen
      rcases Nat.min_eq_zero_iff.mp hlen with h200 | hl
      · omega
      · exact h (List.length_eq_zero.mp hl)
  · rw [hsan, List.length_take]
    exact Nat.min_le_left _ _
  · intro c hc
    rw [hsan] at hc
    have hc' := List.take_subset _ _ hc
    by_cases h : t = []
    · rw [if_pos h] at hc'
      exact (by decide : ∀ x ∈ "untitled".toList, illegalChar x = false) c hc'
    · rw [if_neg h] at hc'
      exact replaceIllegal_chars s c
        (mem_collapseAux (replaceIllegal s) false c (mem_stripChar underscoreOrSpace _ c hc'))
  · rw [hsan]
    apply hDU_false_take
    by_cases h : t = []
    · rw [if_pos h]; decide
    · rw [if_neg h]
      exact hDU_false_stripChar underscoreOrSpace _
        (collapseAux_hDU_false (replaceIllegal s) false)
  · intro h0
    rw [hsan, if_pos h0]
    decide

/-- Witness for `c10_sanitize_filename_spec`: the conjunct with a premise at
an input that sanitizes to nothing, and non-emptiness at an ordinary input. -/
theorem c10_sanitize_filename_spec_witness :
    sanitize_filename "::".toList = "untitled".toList ∧
    sanitize_filename "a<b".toList ≠ [] :=
  ⟨(c10_sanitize_filename_spec "::".toList).2.2.2.2 (by decide),
   (c10_sanitize_filename_spec "a<b".toList).1⟩

/-- Claim C5: evaluating the depth-0 fetch path when Selenium is enabled and
its initialization (or fetch) fails. The code does not fall back to the
static backend: the fallback branch's bare signal call raises `TypeError`
(app.py line 221) before `_fetch_page_with_requests` runs, so the worker
loop aborts instead of continuing the run. -/
theorem c5_selenium_fallback_raises :
    depthZeroFetchPath true 0 false = .error signalCallError ∧
    depthZeroFetchPath true 0 false ≠ .ok .requests :=
  ⟨rfl, fun h => Except.noConfusion h⟩
